import Mathlib

/-!
Verification of the PBT (population-based training) orchestration core of
this repository against its natural-language specification.

The development shallowly embeds the relevant Python code of `src/pbt.py`
and `src/mnist_pbt.py` into Lean:

* `FloatHyperparameter` embeds `mnist_pbt.FloatHyperparameter`
  (`_limited`, `perturb`, `resample`), with Python floats modelled as
  rationals (the claims under check only concern clamping, on which real
  and floating-point arithmetic agree: `max`/`min` are exact).
* `OptimizerHyperparameter` embeds `mnist_pbt.OptimizerHyperparameter`
  (`_set_sub_hyperparams_unused`, `_switch_to_opt`, `perturb`).
* `ConvNet.explore` embeds `mnist_pbt.ConvNet.explore`, with the random
  draws passed in as explicit parameters (`rand` for
  `random.randrange(1, 2 ** num_used)`, and a bit mask `coins` whose bit
  `i` is the outcome of the `random.random() < 0.5` test at loop index
  `i`; the coin stream is consumed in loop order, so indexing coins by
  the loop position is a measure-preserving reindexing of the stream).
* `ConvNet.train` embeds `mnist_pbt.ConvNet.train` and `_train_step`,
  projected onto the step counter (each `_train_step` advances
  `step_num` by exactly one).
* `HyperparamsGraph` together with `HyperparamsUpdate`, `record_update`,
  `collectChain` and `get_update_history` embeds the hyperparameter
  update-history mechanism of `src/pbt.py`; the backward `prev` chain of
  `HyperparamsUpdate` objects is represented as a list, newest first,
  with `[]` playing the role of Python's `None`, and the Python
  `reversed(...)` iterator returned by `get_update_history` is modelled
  by `PyIter`, a one-shot iterator state.
* `train_phase`, `ee_phase`, `LocalCluster.round` and
  `LocalCluster.train` embed `pbt.LocalCluster.train`, generic in the
  graph type; graph mutation is modelled by a state-transformation
  function and the population-level `population_exploit_explore` by a
  list transformation, with an invocation counter recording how many
  times it is called in a round.
-/

/-! ## Float hyperparameters (`mnist_pbt.FloatHyperparameter`) -/

/-- Embeds `mnist_pbt.FloatHyperparameter`: the perturbation factor, the
optional clamping bounds, and the current value.  The sampling callable
`value_setter` is modelled by passing the sampled value to `resample`
explicitly. -/
structure FloatHyperparameter where
  factor : ℚ
  min_value : Option ℚ
  max_value : Option ℚ
  value : ℚ
deriving DecidableEq

/-- Embeds `FloatHyperparameter._limited`: clamp below by `min_value`
when present, then above by `max_value` when present. -/
def FloatHyperparameter.limited (h : FloatHyperparameter) (v : ℚ) : ℚ :=
  let v1 := match h.min_value with
    | some m => max v m
    | none => v
  match h.max_value with
  | some m => min v1 m
  | none => v1

/-- Embeds `FloatHyperparameter.perturb`: multiply the value by `factor`
if the coin (`random.random() < 0.5`) comes up true, otherwise divide by
it, then clamp with `_limited`. -/
def FloatHyperparameter.perturb (h : FloatHyperparameter) (coin : Bool) :
    FloatHyperparameter :=
  { h with value := h.limited (if coin then h.value * h.factor else h.value / h.factor) }

/-- Embeds `FloatHyperparameter.resample`: replace the value by a fresh
sample from `value_setter` (passed explicitly), clamped with `_limited`. -/
def FloatHyperparameter.resample (h : FloatHyperparameter) (sample : ℚ) :
    FloatHyperparameter :=
  { h with value := h.limited sample }

/-! ## Training bursts (`mnist_pbt.ConvNet.train`) -/

/-- Embeds `mnist_pbt.ConvNet.train` projected onto the step counter.
The Python loop repeats `_train_step()` (which advances `step_num` by
exactly one) and stops as soon as `step_num % 500 == 0`.  Given the
starting step count, returns the final step count together with the
number of training iterations performed. -/
def ConvNet.train (step_num : Nat) : Nat × Nat :=
  let s := step_num + 1
  if s % 500 = 0 then (s, 1)
  else
    let r := ConvNet.train s
    (r.1, r.2 + 1)
termination_by 500 - step_num % 500
decreasing_by
  simp_wf
  omega

/-- Closed form of the training burst: from step count `s` it runs
`500 - s % 500` iterations and stops at the next larger multiple of
500. -/
theorem ConvNet.train_eq_aux :
    ∀ (k s : Nat), 500 - s % 500 ≤ k →
      ConvNet.train s = (s + (500 - s % 500), 500 - s % 500) := by
  intro k
  induction k with
  | zero =>
    intro s h
    exfalso
    omega
  | succ k ih =>
    intro s h
    rw [ConvNet.train]
    by_cases hs : (s + 1) % 500 = 0
    · simp only [hs, if_pos rfl]
      have : s % 500 = 499 := by omega
      simp [this]
    · simp only [if_neg hs]
      have hrec : ConvNet.train (s + 1) =
          (s + 1 + (500 - (s + 1) % 500), 500 - (s + 1) % 500) := by
        apply ih
        omega
      rw [hrec]
      have h1 : (s + 1) % 500 = s % 500 + 1 := by omega
      simp only [h1, Prod.mk.injEq]
      constructor <;> omega

theorem ConvNet.train_eq (s : Nat) :
    ConvNet.train s = (s + (500 - s % 500), 500 - s % 500) :=
  ConvNet.train_eq_aux (500 - s % 500) s (Nat.le_refl _)

/-! ## Claim C8 -/

/-- C8: for every float hyperparameter whose declared bounds are finite
(both `min_value` and `max_value` present, with `min_value ≤ max_value`
as in every declaration in the source), neither `perturb` nor `resample`
ever produces a value outside `[min_value, max_value]`: after either
operation the stored value satisfies `min_value ≤ value ≤ max_value`. -/
theorem C8_perturb_resample_within_bounds (h : FloatHyperparameter) (a b : ℚ)
    (hmin : h.min_value = some a) (hmax : h.max_value = some b) (hab : a ≤ b)
    (coin : Bool) (sample : ℚ) :
    a ≤ (h.perturb coin).value ∧ (h.perturb coin).value ≤ b ∧
      a ≤ (h.resample sample).value ∧ (h.resample sample).value ≤ b := by
  have key : ∀ v : ℚ, a ≤ h.limited v ∧ h.limited v ≤ b := by
    intro v
    simp only [FloatHyperparameter.limited, hmin, hmax]
    exact ⟨le_min (le_max_right v a) hab, min_le_right _ b⟩
  exact ⟨(key _).1, (key _).2, (key _).1, (key _).2⟩

/-- Witness for C8 at a concrete instance (the `Keep probability`
declaration: bounds `[1/10, 1]`, factor `6/5`), evaluated at value `5`,
a multiply-coin and sample `7`. -/
theorem C8_witness :
    (1 : ℚ)/10 ≤ ((⟨6/5, some (1/10), some 1, 5⟩ : FloatHyperparameter).perturb true).value ∧
      ((⟨6/5, some (1/10), some 1, 5⟩ : FloatHyperparameter).perturb true).value ≤ 1 ∧
      (1 : ℚ)/10 ≤ ((⟨6/5, some (1/10), some 1, 5⟩ : FloatHyperparameter).resample 7).value ∧
      ((⟨6/5, some (1/10), some 1, 5⟩ : FloatHyperparameter).resample 7).value ≤ 1 :=
  C8_perturb_resample_within_bounds _ _ _ rfl rfl (by norm_num) true 7

/-! ## Claim C9 -/

/-- C9 counterexample: the claim says a training burst runs exactly 500
iterations from every starting step count.  Starting from step count
250, `ConvNet.train` performs only 250 iterations (it stops as soon as
`step_num % 500 == 0`, i.e. at step 500). -/
theorem C9_counterexample :
    (ConvNet.train 250).2 = 250 ∧ (ConvNet.train 250).2 ≠ 500 := by
  rw [ConvNet.train_eq]
  norm_num

/-- C9 amended: a training burst advances the step count by one per
iteration and runs until the step count reaches the next larger multiple
of 500: from starting step count `s` it performs `500 - s % 500`
iterations and ends at step count `s + (500 - s % 500)`, a multiple of
500.  In particular it performs exactly 500 iterations precisely when
`s` is itself a multiple of 500 (as is every burst start reachable in a
PBT run). -/
theorem C9_train_until_next_multiple (s : Nat) :
    ConvNet.train s = (s + (500 - s % 500), 500 - s % 500) ∧
      (ConvNet.train s).1 % 500 = 0 ∧
      1 ≤ (ConvNet.train s).2 ∧ (ConvNet.train s).2 ≤ 500 := by
  have h := ConvNet.train_eq s
  rw [h]
  refine ⟨rfl, ?_, ?_, ?_⟩ <;> simp only [] <;> omega

/-! ## The scheduler loop (`pbt.LocalCluster.train`) -/

/-- Embeds the first `for` loop of `pbt.LocalCluster.train`
(the training phase of one `while` round):

    keep_training = False
    for graph in self.population:
        if training_cond(graph, self.population):
            keep_training = True
            graph.train()

Graph mutation is modelled functionally: `done` is the already visited
prefix of the population (with its graphs possibly trained) and the
second list argument the unvisited suffix, so `done ++ g :: rest` is the
current population that `training_cond` observes.  Returns the final
population together with `keep_training`. -/
def train_phase_go {G : Type} (cond : G → List G → Bool) (tr : G → G)
    (done : List G) : List G → Bool → List G × Bool
  | [], kt => (done, kt)
  | g :: rest, kt =>
    if cond g (done ++ g :: rest) then
      train_phase_go cond tr (done ++ [tr g]) rest true
    else
      train_phase_go cond tr (done ++ [g]) rest kt

/-- The whole training phase of one round, starting with
`keep_training = False`. -/
def train_phase {G : Type} (cond : G → List G → Bool) (tr : G → G)
    (pop : List G) : List G × Bool :=
  train_phase_go cond tr [] pop false

/-- Embeds the second `for` loop of `pbt.LocalCluster.train`:

    for graph in self.population:
        if training_cond(graph, self.population):
            graph.population_exploit_explore(self.population)
            break
    else:
        break

It scans the (already trained) population `pop` for the first graph
satisfying the predicate; if found it applies the population-level
exploit/explore `pee` once and stops the scan (`break`, continuing the
`while`), otherwise the `for`-`else` exits the `while`.  Returns the
resulting population and the number of `population_exploit_explore`
invocations (0 or 1); a count of 0 signals that the `while` loop
stops. -/
def ee_phase_go {G : Type} (cond : G → List G → Bool) (pee : List G → List G)
    (pop : List G) : List G → List G × Nat
  | [] => (pop, 0)
  | g :: rest =>
    if cond g pop then (pee pop, 1) else ee_phase_go cond pee pop rest

def ee_phase {G : Type} (cond : G → List G → Bool) (pee : List G → List G)
    (pop : List G) : List G × Nat :=
  ee_phase_go cond pee pop pop

/-- One round of the `while True` loop of `pbt.LocalCluster.train`:
the training phase followed, when `keep_training` holds, by the
exploit/explore scan.  Returns the resulting population,
`keep_training`, and how many times `population_exploit_explore` ran
this round. -/
def LocalCluster.round {G : Type} (cond : G → List G → Bool) (tr : G → G)
    (pee : List G → List G) (pop : List G) : List G × Bool × Nat :=
  let p := train_phase cond tr pop
  if p.2 then
    let e := ee_phase cond pee p.1
    (e.1, p.2, e.2)
  else
    (p.1, p.2, 0)

/-- Embeds `pbt.LocalCluster.train`: repeat rounds while neither `break`
fires.  The `while True` loop is given explicit fuel; every statement of
the source is reflected in `LocalCluster.round`. -/
def LocalCluster.train {G : Type} (cond : G → List G → Bool) (tr : G → G)
    (pee : List G → List G) : Nat → List G → List G
  | 0, pop => pop
  | fuel + 1, pop =>
    let r := LocalCluster.round cond tr pee pop
    if r.2.1 && (r.2.2 == 1) then LocalCluster.train cond tr pee fuel r.1
    else r.1

/-- If no graph triggered training, the training phase leaves the
population unchanged. -/
theorem train_phase_go_not_kt {G : Type} (cond : G → List G → Bool) (tr : G → G) :
    ∀ (l done : List G), (train_phase_go cond tr done l false).2 = false →
      (train_phase_go cond tr done l false).1 = done ++ l := by
  intro l
  induction l with
  | nil => intro done _; simp [train_phase_go]
  | cons g rest ih =>
    intro done h
    rw [train_phase_go] at h ⊢
    by_cases hc : cond g (done ++ g :: rest) = true
    · exfalso
      rw [if_pos hc] at h
      have mono : ∀ (l' : List G) (d : List G),
          (train_phase_go cond tr d l' true).2 = true := by
        intro l'
        induction l' with
        | nil => intro d; simp [train_phase_go]
        | cons x xs ihx =>
          intro d
          rw [train_phase_go]
          by_cases hx : cond x (d ++ x :: xs) = true
          · rw [if_pos hx]; exact ihx _
          · rw [if_neg hx]; exact ihx _
      rw [mono rest (done ++ [tr g])] at h
      exact Bool.true_eq_false.mp h
    · rw [if_neg hc] at h ⊢
      rw [ih _ h]
      simp

/-- The exploit/explore scan applies `pee` exactly once if some graph of
the scanned list satisfies the predicate against the full population,
and not at all otherwise. -/
theorem ee_phase_go_count {G : Type} (cond : G → List G → Bool)
    (pee : List G → List G) (pop : List G) :
    ∀ l : List G, (ee_phase_go cond pee pop l).2 =
      if l.any (fun g => cond g pop) then 1 else 0 := by
  intro l
  induction l with
  | nil => simp [ee_phase_go]
  | cons g rest ih =>
    rw [ee_phase_go]
    by_cases hc : cond g pop = true
    · simp [hc]
    · simp [hc, ih]

/-- The exploit/explore scan leaves the population unchanged when no
graph satisfies the predicate, and replaces it by `pee pop` otherwise. -/
theorem ee_phase_go_result {G : Type} (cond : G → List G → Bool)
    (pee : List G → List G) (pop : List G) :
    ∀ l : List G, (ee_phase_go cond pee pop l).1 =
      if l.any (fun g => cond g pop) then pee pop else pop := by
  intro l
  induction l with
  | nil => simp [ee_phase_go]
  | cons g rest ih =>
    rw [ee_phase_go]
    by_cases hc : cond g pop = true
    · simp [hc]
    · simp [hc, ih]

/-! ## Claim C2 -/

/-- C2 counterexample: the claim says that whenever at least one member
trained in a round, the population-level exploit/explore runs exactly
once for that round.  Take the population `[0]` over `Nat` graphs, the
training step `g ↦ g + 1` and the predicate `g == 0` (continue while no
step has been taken).  In the first round the single member trains
(`keep_training` is `true`), yet the predicate, re-evaluated after the
training phase, holds for no member, so `population_exploit_explore`
runs zero times. -/
theorem C2_counterexample :
    (LocalCluster.round (fun (g : Nat) (_ : List Nat) => g == 0)
        (fun g => g + 1) id [0]).2.1 = true ∧
      (LocalCluster.round (fun (g : Nat) (_ : List Nat) => g == 0)
        (fun g => g + 1) id [0]).2.2 = 0 := by
  constructor <;> rfl

/-- C2 amended: in each round of `LocalCluster.train`, every member
satisfying the predicate runs a training burst; the population-level
exploit/explore then runs exactly once for the round — never once per
eligible member — if and only if the round trained at least one member
AND at least one member still satisfies the predicate when it is
re-evaluated after the training phase; if no member still satisfies the
predicate (in particular if no member trained, in which case the
population is unchanged), the exploit/explore is skipped and the loop
stops with the current population. -/
theorem C2_round_exploit_once (G : Type) (cond : G → List G → Bool)
    (tr : G → G) (pee : List G → List G) (pop : List G) (fuel : Nat) :
    (LocalCluster.round cond tr pee pop).2.2 =
      (if (train_phase cond tr pop).2 &&
          (train_phase cond tr pop).1.any (fun g => cond g (train_phase cond tr pop).1)
        then 1 else 0) ∧
    LocalCluster.train cond tr pee (fuel + 1) pop =
      (if (train_phase cond tr pop).2 &&
          (train_phase cond tr pop).1.any (fun g => cond g (train_phase cond tr pop).1)
        then LocalCluster.train cond tr pee fuel (LocalCluster.round cond tr pee pop).1
        else if (train_phase cond tr pop).2 then (train_phase cond tr pop).1
        else pop) := by
  have hround : LocalCluster.round cond tr pee pop =
      let p := train_phase cond tr pop
      if p.2 then ((ee_phase cond pee p.1).1, p.2, (ee_phase cond pee p.1).2)
      else (p.1, p.2, 0) := rfl
  by_cases hkt : (train_phase cond tr pop).2 = true
  · by_cases hany :
        (train_phase cond tr pop).1.any
          (fun g => cond g (train_phase cond tr pop).1) = true
    · constructor
      · rw [hround]
        simp only [hkt, if_pos rfl, ee_phase, ee_phase_go_count, hany, if_pos rfl]
        simp [hany]
      · rw [LocalCluster.train]
        simp only [hround, hkt, if_pos rfl, hany, Bool.true_and, if_pos rfl,
          ee_phase, ee_phase_go_count]
        simp [hany]
    · have hany' :
          (train_phase cond tr pop).1.any
            (fun g => cond g (train_phase cond tr pop).1) = false :=
        Bool.not_eq_true _ ▸ (Bool.eq_false_iff.mpr hany)
      constructor
      · rw [hround]
        simp only [hkt, if_pos rfl, ee_phase, ee_phase_go_count, hany']
        simp [hany']
      · rw [LocalCluster.train]
        simp only [hround, hkt, if_pos rfl, ee_phase, ee_phase_go_count,
          ee_phase_go_result, hany']
        simp [hany', hkt]
  · have hkt' : (train_phase cond tr pop).2 = false := Bool.eq_false_iff.mpr hkt
    have hpop : (train_phase cond tr pop).1 = pop := by
      have := train_phase_go_not_kt cond tr pop []
      rw [train_phase] at hkt' ⊢
      rw [this hkt']
      simp
    constructor
    · rw [hround]
      simp [hkt']
    · rw [LocalCluster.train]
      simp only [hround, hkt', Bool.false_and, if_neg Bool.false_ne_true]
      simp [hkt', hpop]

/-! ## Exploration (`mnist_pbt.ConvNet.explore`) -/

/-- The number of used hyperparameters,
`sum(1 for hyperparam in self.hyperparams if not hyperparam.unused)`.
A graph's hyperparameter list is represented by the list of its
`unused` flags, in declaration order. -/
def countUsed (flags : List Bool) : Nat :=
  (flags.filter (fun u => !u)).length

/-- Embeds the `for i in range(len(self.hyperparams))` loop of
`ConvNet.explore`.  `rand` is the value drawn by
`random.randrange(1, 2 ** num_used)`; bit `i` of `coins` is the outcome
of the `random.random() < 0.5` coin at loop index `i`.  Returns, for
each hyperparameter position, whether `perturb()` was invoked on it:

    if perturbed_used_hyperparam or hyperparam.unused:
        if random.random() < 0.5:
            hyperparam.perturb()
    elif rand & (2 ** i) != 0:
        hyperparam.perturb()
        perturbed_used_hyperparam = True
-/
def exploreGo (rand coins : Nat) : List Bool → Nat → Bool → List Bool
  | [], _, _ => []
  | u :: rest, i, perturbed =>
    if perturbed || u then
      coins.testBit i :: exploreGo rand coins rest (i + 1) perturbed
    else if rand.testBit i then
      true :: exploreGo rand coins rest (i + 1) true
    else
      false :: exploreGo rand coins rest (i + 1) perturbed

/-- Embeds `mnist_pbt.ConvNet.explore` on the `unused` flags of the
graph's hyperparameters.  `random.randrange(1, 2 ** num_used)` raises
`ValueError` (empty range) exactly when `2 ** num_used ≤ 1`; this is the
`none` result, produced before any hyperparameter is perturbed.
Otherwise the result records which hyperparameters were perturbed. -/
def ConvNet.explore (flags : List Bool) (rand coins : Nat) : Option (List Bool) :=
  if 2 ^ countUsed flags ≤ 1 then none
  else some (exploreGo rand coins flags 0 false)

/-- The bit mask of a list of booleans: bit `i` is the `i`-th entry. -/
def maskOf : List Bool → Nat
  | [] => 0
  | b :: t => (if b then 1 else 0) + 2 * maskOf t

/-- The bit mask of the used (not `unused`) hyperparameter positions. -/
def usedMask (flags : List Bool) : Nat :=
  maskOf (flags.map (fun u => !u))

/-- The `unused` flags of a `ConvNet`'s hyperparameter list, in
declaration order.  `ConvNet.__init__` appends `Keep probability`
(always used), then `OptimizerHyperparameter.__init__` appends
`Optimizer` (always used), `Learning rate` and `Momentum`.  `Learning
rate` belongs to every `OptimizerInfo`, so after construction,
`set_value` or `_switch_to_opt` it is always used; `Momentum` belongs
only to `MomentumOptimizer` (`opt_index == 2`), so it is used exactly
when that optimizer is active.  These are therefore exactly the flag
configurations a `ConvNet` can be in when `explore` runs. -/
def convNetFlags (momentumActive : Bool) : List Bool :=
  [false, false, false, !momentumActive]

/-- Counts, over the whole probability space of `ConvNet.explore` — the
uniform draw `rand ∈ {1, …, 2 ^ num_used − 1}` times the `2 ^ len`
equiprobable coin masks — the outcomes whose perturbed-position mask is
`t`. -/
def countOutcome (flags : List Bool) (t : Nat) : Nat :=
  (((List.range (2 ^ countUsed flags)).filter (fun r => r != 0)).map (fun r =>
    ((List.range (2 ^ flags.length)).filter (fun c =>
      match ConvNet.explore flags r c with
      | some res => maskOf res == t
      | none => false)).length)).sum

/-! ## Claim C10 -/

/-- C10: `ConvNet.explore` fails (the `random.randrange(1, 2 ** num_used)`
draw is taken from an empty range) before perturbing anything if and
only if the graph has no used hyperparameter — every flag is `unused`,
or the hyperparameter list is empty. -/
theorem C10_explore_fails_iff_no_used (flags : List Bool) (rand coins : Nat) :
    ConvNet.explore flags rand coins = none ↔ countUsed flags = 0 := by
  unfold ConvNet.explore
  by_cases h : 2 ^ countUsed flags ≤ 1
  · simp only [if_pos h, true_iff]
    rcases Nat.eq_zero_or_pos (countUsed flags) with h0 | h0
    · exact h0
    · exfalso
      have : 2 ^ 1 ≤ 2 ^ countUsed flags := Nat.pow_le_pow_right (by norm_num) h0
      omega
  · simp only [if_neg h]
    constructor
    · intro hcontra
      exact absurd hcontra (Option.some_ne_none _)
    · intro h0
      exfalso
      rw [h0] at h
      norm_num at h

/-! ## Claim C1 -/

set_option maxRecDepth 4000 in
/-- C1: for every `ConvNet` graph (whose possible `unused`-flag
configurations at `explore` time are `convNetFlags m`, all with at least
one — in fact at least three — used hyperparameters), `explore` perturbs
a uniformly random non-empty subset of the used hyperparameters and
perturbs every unused hyperparameter independently with probability 0.5
regardless of the drawn subset: over the uniform probability space of
`(rand, coins)` pairs, every perturbed-set outcome `t` that contains at
least one used hyperparameter occurs in exactly `2 ^ countUsed` of the
`(2 ^ countUsed − 1) · 2 ^ 4` equiprobable sample points — the constant
count is the product law `1 / (2 ^ countUsed − 1) · (1/2) ^ numUnused` —
while any outcome perturbing no used hyperparameter (in particular the
empty one) never occurs. -/
theorem C1_explore_uniform_nonempty_subset (m : Bool) (t : Fin 16) :
    countOutcome (convNetFlags m) t.val =
      (if t.val &&& usedMask (convNetFlags m) ≠ 0
        then 2 ^ countUsed (convNetFlags m) else 0) := by
  revert m t
  decide

/-! ## Update history (`pbt.HyperparamsUpdate` / `pbt.HyperparamsGraph`) -/

/-- One hyperparameter as seen by the history mechanism: its `name`, its
`unused` flag and its string rendering `str(hyperparam)`. -/
structure HP where
  name : String
  unused : Bool
  val : String
deriving DecidableEq

/-- Embeds `pbt.HyperparamsUpdate`: the step number of the graph at
recording time and the `OrderedDict` of string-rendered values of the
non-`unused` hyperparameters, as an association list in insertion
order.  The `prev` field is represented by the position of an update in
its graph's chain (see `HyperparamsGraph.last_update`). -/
structure HyperparamsUpdate where
  step_num : Nat
  hyperparams : List (String × String)
deriving DecidableEq

/-- Embeds `pbt.HyperparamsGraph` (with the step counter kept by
`mnist_pbt.ConvNet`): the current step number, the hyperparameter list
in declaration order, and the backward `prev`-chain of updates reachable
from `last_update`, newest first — `[]` plays Python's `None`, and the
`prev` of a chain entry is the entry after it in the list. -/
structure HyperparamsGraph where
  step_num : Nat
  hyperparams : List HP
  last_update : List HyperparamsUpdate
deriving DecidableEq

/-- Insertion into a Python `OrderedDict` rendered as an association
list: a fresh key is appended at the end; an existing key keeps its
position and has its value overwritten. -/
def odInsert (d : List (String × String)) (k v : String) : List (String × String) :=
  if d.any (fun p => p.1 == k) then
    d.map (fun p => if p.1 == k then (k, v) else p)
  else
    d ++ [(k, v)]

/-- Embeds `HyperparamsUpdate.__init__`: record the graph's current step
number and, iterating over `graph.hyperparams` in declaration order,
insert the string rendering of every hyperparameter that is not
`unused` into an `OrderedDict`. -/
def mkUpdate (g : HyperparamsGraph) : HyperparamsUpdate :=
  { step_num := g.step_num
  , hyperparams :=
      g.hyperparams.foldl
        (fun d h => if h.unused then d else odInsert d h.name h.val) [] }

/-- Embeds `HyperparamsGraph.record_update`:
`self.last_update = HyperparamsUpdate(self)` — the new update's `prev`
is the old head and the new update becomes the head. -/
def HyperparamsGraph.record_update (g : HyperparamsGraph) : HyperparamsGraph :=
  { g with last_update := mkUpdate g :: g.last_update }

/-- Embeds the chain walk shared by `get_update_history` and
`print_update_history`:

    updates = []
    update = self.last_update
    while update is not None:
        updates.append(update)
        update = update.prev

`acc` is the `updates` buffer built so far; the first argument is the
remaining chain. -/
def collectChain : List HyperparamsUpdate → List HyperparamsUpdate →
    List HyperparamsUpdate
  | [], acc => acc
  | u :: prev, acc => collectChain prev (acc ++ [u])

/-- A Python one-shot iterator (such as the `list_reverseiterator`
returned by `reversed(...)`): the items it has not yielded yet, in yield
order. -/
structure PyIter (α : Type) where
  remaining : List α
deriving DecidableEq

/-- Fully consuming a Python iterator (e.g. by a `for` loop or
`list(...)`): yields all remaining items and leaves the iterator
exhausted. -/
def PyIter.consume {α : Type} (it : PyIter α) : List α × PyIter α :=
  (it.remaining, ⟨[]⟩)

/-- Embeds `HyperparamsGraph.get_update_history`: walk the backward
chain into the `updates` buffer (newest first) and return
`reversed(updates)`, a one-shot iterator yielding the buffer from its
end, i.e. oldest first. -/
def HyperparamsGraph.get_update_history (g : HyperparamsGraph) :
    PyIter HyperparamsUpdate :=
  ⟨(collectChain g.last_update []).reverse⟩

/-- The chain walk of `get_update_history` returns exactly the updates
reachable from `last_update`, in chain (newest-first) order. -/
theorem collectChain_eq :
    ∀ (c acc : List HyperparamsUpdate), collectChain c acc = acc ++ c := by
  intro c
  induction c with
  | nil => intro acc; simp [collectChain]
  | cons u prev ih =>
    intro acc
    rw [collectChain, ih]
    simp

/-! ## Claim C5 -/

/-- C5 counterexample: the claim says the history-sequence operation
produces a restartable sequence.  For a graph with one recorded update,
fully consuming the returned iterator yields that one snapshot, but
consuming the same iterator object again yields nothing: the
`reversed(...)` object returned by `get_update_history` is a one-shot
iterator, not a restartable sequence. -/
theorem C5_counterexample :
    ((HyperparamsGraph.mk 0 [] [⟨0, []⟩]).get_update_history.consume).1.length = 1 ∧
      (((HyperparamsGraph.mk 0 [] [⟨0, []⟩]).get_update_history.consume).2.consume).1.length = 0 := by
  constructor <;> rfl

/-- C5 amended: the history-sequence operation produces a finite
sequence of snapshots ordered oldest to newest — the reverse of the
backward `prev`-chain starting at the current head — but as a one-shot
iterator rather than a restartable sequence: a first full traversal
yields the reversed chain, and any further traversal of the same
iterator yields nothing. -/
theorem C5_history_reverse_of_chain_one_shot (g : HyperparamsGraph) :
    (g.get_update_history.consume).1 = g.last_update.reverse ∧
      ((g.get_update_history.consume).2.consume).1 = [] := by
  constructor
  · show (collectChain g.last_update []).reverse = g.last_update.reverse
    rw [collectChain_eq]
    simp
  · rfl

/-- Building the `OrderedDict` of `HyperparamsUpdate.__init__` by
left-fold: when the used hyperparameters have pairwise distinct names
(the spec's uniqueness invariant, satisfied by `ConvNet`'s four
distinctly named hyperparameters) and none of them collides with a key
already in the accumulating dict, every insertion is a fresh append, so
the fold produces exactly the used hyperparameters' renderings in
declaration order. -/
theorem foldl_odInsert_eq (hps : List HP) :
    ∀ acc : List (String × String),
      ((hps.filter (fun h => !h.unused)).map (fun h => h.name)).Nodup →
      (∀ h ∈ hps, h.unused = false → ∀ p ∈ acc, p.1 ≠ h.name) →
      hps.foldl (fun d h => if h.unused then d else odInsert d h.name h.val) acc =
        acc ++ (hps.filter (fun h => !h.unused)).map (fun h => (h.name, h.val)) := by
  induction hps with
  | nil => intro acc _ _; simp
  | cons h t ih =>
    intro acc hnd hdisj
    by_cases hu : h.unused = true
    · rw [List.foldl_cons, if_pos hu]
      have ht := ih acc (by simpa [hu] using hnd)
        (fun h' hh' hu' p hp => hdisj h' (List.mem_cons_of_mem _ hh') hu' p hp)
      rw [ht]
      simp [hu]
    · have hu' : h.unused = false := Bool.eq_false_iff.mpr hu
      have hfc : (List.filter (fun x => !x.unused) (h :: t)) =
          h :: t.filter (fun x => !x.unused) := by
        simp [List.filter_cons, hu']
      rw [hfc] at hnd
      have hnd' : ((t.filter (fun x => !x.unused)).map (fun x => x.name)).Nodup :=
        (List.nodup_cons.mp (by simpa using hnd)).2
      have hhead : h.name ∉ (t.filter (fun x => !x.unused)).map (fun x => x.name) :=
        (List.nodup_cons.mp (by simpa using hnd)).1
      have hfresh : acc.any (fun p => p.1 == h.name) = false := by
        rw [List.any_eq_false]
        intro p hp
        simpa using hdisj h (List.mem_cons_self _ _) hu' p hp
      have hoi : odInsert acc h.name h.val = acc ++ [(h.name, h.val)] := by
        unfold odInsert
        rw [hfresh]
        simp
      have hdisj' : ∀ h' ∈ t, h'.unused = false →
          ∀ p ∈ acc ++ [(h.name, h.val)], p.1 ≠ h'.name := by
        intro h' hh' hu'' p hp
        rcases List.mem_append.mp hp with hpa | hpb
        · exact hdisj h' (List.mem_cons_of_mem _ hh') hu'' p hpa
        · have hpe : p = (h.name, h.val) := List.mem_singleton.mp hpb
          rw [hpe]
          intro hcontra
          have hne : h.name = h'.name := hcontra
          apply hhead
          rw [hne]
          exact List.mem_map.mpr ⟨h', List.mem_filter.mpr ⟨hh', by simp [hu'']⟩, rfl⟩
      have ht := ih (acc ++ [(h.name, h.val)]) hnd' hdisj'
      rw [List.foldl_cons, if_neg (by simp [hu']), hoi, ht, hfc]
      simp

/-! ## Claim C6 -/

/-- C6: for every graph whose used hyperparameters have pairwise
distinct names (the spec's uniqueness invariant; `ConvNet`'s four
hyperparameter names are distinct), `record_update` creates a snapshot
holding the graph's current step number and the string-rendered values
of exactly those hyperparameters whose `unused` flag is false, in
declaration order, links it in front of the graph's current head
(`prev` = old head), and makes it the new head. -/
theorem C6_record_update_snapshot (g : HyperparamsGraph)
    (hnd : ((g.hyperparams.filter (fun h => !h.unused)).map (fun h => h.name)).Nodup) :
    g.record_update =
      { g with last_update :=
          { step_num := g.step_num
          , hyperparams :=
              (g.hyperparams.filter (fun h => !h.unused)).map
                (fun h => (h.name, h.val)) } :: g.last_update } := by
  unfold HyperparamsGraph.record_update mkUpdate
  have := foldl_odInsert_eq g.hyperparams [] hnd (by intro h _ _ p hp; simp at hp)
  rw [this]
  simp

/-- Witness for C6 at a concrete graph with one unused hyperparameter:
the snapshot records the two used hyperparameters, in declaration
order, skipping the unused one. -/
theorem C6_witness :
    (HyperparamsGraph.mk 500
        [⟨"Keep probability", false, "0.5"⟩, ⟨"Momentum", true, "0.1"⟩,
          ⟨"Optimizer", false, "AdamOptimizer"⟩] []).record_update =
      { HyperparamsGraph.mk 500
          [⟨"Keep probability", false, "0.5"⟩, ⟨"Momentum", true, "0.1"⟩,
            ⟨"Optimizer", false, "AdamOptimizer"⟩] [] with
        last_update :=
          { step_num := 500
          , hyperparams :=
              ((HyperparamsGraph.mk 500
                [⟨"Keep probability", false, "0.5"⟩, ⟨"Momentum", true, "0.1"⟩,
                  ⟨"Optimizer", false, "AdamOptimizer"⟩] []).hyperparams.filter
                    (fun h => !h.unused)).map (fun h => (h.name, h.val)) } :: [] } :=
  C6_record_update_snapshot _ (by decide)

/-! ## Graph populations and the operations affecting histories -/

/-- In-place mutation of the `i`-th element of a Python list. -/
def modifyAt {α : Type} : List α → Nat → (α → α) → List α
  | [], _, _ => []
  | a :: t, 0, f => f a :: t
  | a :: t, n + 1, f => a :: modifyAt t n f

/-- The operations of the source that touch a graph's step counter or
update history: a single `_train_step()` (advancing `step_num` by one),
a `record_update()` call (from `initialize_variables`, `explore`, or an
exploit), and `set_value(other.get_value())` — `ConvNet.set_value`
overwrites `step_num`, the hyperparameter values and `last_update` with
the source graph's, atomically from one `get_value` tuple. -/
inductive PbtOp where
  | train_step (i : Nat)
  | record (i : Nat)
  | set_value (i j : Nat)
deriving DecidableEq

/-- Does this operation copy another graph's state into graph `i`? -/
def isSetValueTo (i : Nat) : PbtOp → Bool
  | .set_value k _ => k == i
  | _ => false

/-- Is this operation a `record_update` call for graph `i`? -/
def isRecordOf (i : Nat) : PbtOp → Bool
  | .record k => k == i
  | _ => false

/-- Executes one operation on a population of graphs. -/
def execOp (sys : List HyperparamsGraph) : PbtOp → List HyperparamsGraph
  | .train_step i => modifyAt sys i (fun g => { g with step_num := g.step_num + 1 })
  | .record i => modifyAt sys i HyperparamsGraph.record_update
  | .set_value i j =>
    match sys.get? j with
    | none => sys
    | some gj => modifyAt sys i (fun g =>
        { g with step_num := gj.step_num, hyperparams := gj.hyperparams,
                 last_update := gj.last_update })

/-- Executes a sequence of operations. -/
def execTrace (sys : List HyperparamsGraph) (ops : List PbtOp) :
    List HyperparamsGraph :=
  ops.foldl execOp sys

/-- The history invariant of one graph: its current step count is at
least every recorded step number, and the backward chain (newest first)
carries non-increasing step numbers. -/
def ValidGraph (g : HyperparamsGraph) : Prop :=
  List.Sorted (· ≥ ·) (g.step_num :: g.last_update.map (fun u => u.step_num))

/-- Every graph of the population satisfies the history invariant. -/
def ValidSys (sys : List HyperparamsGraph) : Prop :=
  ∀ g ∈ sys, ValidGraph g

theorem get?_modifyAt {α : Type} :
    ∀ (l : List α) (i k : Nat) (f : α → α),
      (modifyAt l i f).get? k = if k = i then (l.get? k).map f else l.get? k := by
  intro l
  induction l with
  | nil => intro i k f; simp [modifyAt]
  | cons a t ih =>
    intro i k f
    match i, k with
    | 0, 0 => simp [modifyAt]
    | 0, k + 1 => simp [modifyAt]
    | i + 1, 0 => simp [modifyAt]
    | i + 1, k + 1 =>
      show (modifyAt t i f).get? k = if k + 1 = i + 1 then ((a :: t).get? (k + 1)).map f else (a :: t).get? (k + 1)
      rw [ih i k f]
      by_cases hik : k = i
      · simp [hik]
      · rw [if_neg hik, if_neg (fun h => hik (Nat.succ_injective h))]
        rfl

theorem mem_modifyAt {α : Type} :
    ∀ (l : List α) (i : Nat) (f : α → α) (x : α), x ∈ modifyAt l i f →
      x ∈ l ∨ ∃ y ∈ l, x = f y := by
  intro l
  induction l with
  | nil => intro i f x hx; simp [modifyAt] at hx
  | cons a t ih =>
    intro i f x hx
    match i with
    | 0 =>
      rcases List.mem_cons.mp hx with hfa | hxt
      · exact Or.inr ⟨a, List.mem_cons_self _ _, hfa⟩
      · exact Or.inl (List.mem_cons_of_mem _ hxt)
    | i + 1 =>
      rcases List.mem_cons.mp hx with hxa | hxt
      · exact Or.inl (hxa ▸ List.mem_cons_self _ _)
      · rcases ih i f x hxt with hmem | ⟨y, hy, hxy⟩
        · exact Or.inl (List.mem_cons_of_mem _ hmem)
        · exact Or.inr ⟨y, List.mem_cons_of_mem _ hy, hxy⟩

/-- Each of the three operations preserves the history invariant of
every graph in the population. -/
theorem validSys_execOp (sys : List HyperparamsGraph) (op : PbtOp)
    (h : ValidSys sys) : ValidSys (execOp sys op) := by
  have hrec : ∀ g, ValidGraph g → ValidGraph g.record_update := by
    intro g hg
    rcases List.sorted_cons.mp hg with ⟨hge, hs⟩
    unfold ValidGraph HyperparamsGraph.record_update
    refine List.sorted_cons.mpr ⟨?_, ?_⟩
    · intro b hb
      simp only [List.map_cons, List.mem_cons] at hb
      rcases hb with hb0 | hbm
      · rw [hb0]; rfl
      · exact hge b hbm
    · exact List.sorted_cons.mpr ⟨fun b hb => hge b hb, hs⟩
  have htrain : ∀ g, ValidGraph g →
      ValidGraph { g with step_num := g.step_num + 1 } := by
    intro g hg
    rcases List.sorted_cons.mp hg with ⟨hge, hs⟩
    exact List.sorted_cons.mpr ⟨fun b hb => Nat.le_succ_of_le (hge b hb), hs⟩
  have hcopy : ∀ (g gj : HyperparamsGraph), ValidGraph gj →
      ValidGraph { g with step_num := gj.step_num, hyperparams := gj.hyperparams,
                          last_update := gj.last_update } := by
    intro g gj hgj
    exact hgj
  match op with
  | .train_step i =>
    intro g hg
    rcases mem_modifyAt sys i _ g hg with hmem | ⟨y, hy, hgy⟩
    · exact h g hmem
    · exact hgy ▸ htrain y (h y hy)
  | .record i =>
    intro g hg
    rcases mem_modifyAt sys i _ g hg with hmem | ⟨y, hy, hgy⟩
    · exact h g hmem
    · exact hgy ▸ hrec y (h y hy)
  | .set_value i j =>
    intro g hg
    have hg' : g ∈ (match sys.get? j with
        | none => sys
        | some gj => modifyAt sys i (fun g =>
            { g with step_num := gj.step_num, hyperparams := gj.hyperparams,
                     last_update := gj.last_update })) := hg
    clear hg
    cases hj : sys.get? j with
    | none => rw [hj] at hg'; exact h g hg'
    | some gj =>
      rw [hj] at hg'
      rcases mem_modifyAt sys i _ g hg' with hmem | ⟨y, hy, hgy⟩
      · exact h g hmem
      · exact hgy ▸ hcopy y gj (h gj (List.get?_mem hj))

/-- The invariant is preserved along any operation trace. -/
theorem validSys_execTrace :
    ∀ (ops : List PbtOp) (sys : List HyperparamsGraph), ValidSys sys →
      ValidSys (execTrace sys ops) := by
  intro ops
  induction ops with
  | nil => intro sys h; exact h
  | cons op rest ih =>
    intro sys h
    exact ih (execOp sys op) (validSys_execOp sys op h)

/-- Effect of one operation on the history length of graph `i`, when
the operation is not a `set_value` into `i`: a `record_update` call for
`i` lengthens its chain by one, and every other operation leaves it
unchanged. -/
theorem history_length_execOp (sys : List HyperparamsGraph) (op : PbtOp)
    (i : Nat) (hns : isSetValueTo i op = false) :
    ((execOp sys op).get? i).map (fun g => g.last_update.length) =
      (sys.get? i).map
        (fun g => g.last_update.length + (if isRecordOf i op then 1 else 0)) := by
  match op with
  | .train_step k =>
    show ((modifyAt sys k _).get? i).map _ = _
    rw [get?_modifyAt]
    by_cases hik : i = k
    · rw [if_pos hik]
      cases sys.get? i <;> simp [isRecordOf]
    · rw [if_neg hik]
      cases sys.get? i <;> simp [isRecordOf]
  | .record k =>
    show ((modifyAt sys k _).get? i).map _ = _
    rw [get?_modifyAt]
    by_cases hik : i = k
    · rw [if_pos hik]
      have hr : isRecordOf i (PbtOp.record k) = true := by
        simp [isRecordOf, hik]
      rw [hr]
      cases sys.get? i <;>
        simp [HyperparamsGraph.record_update]
    · rw [if_neg hik]
      have hr : isRecordOf i (PbtOp.record k) = false := by
        simp [isRecordOf]
        exact fun hc => hik hc.symm
      rw [hr]
      cases sys.get? i <;> simp
  | .set_value k j =>
    have hki : ¬ i = k := by
      simp [isSetValueTo] at hns
      exact fun hc => hns hc.symm
    have hr : isRecordOf i (PbtOp.set_value k j) = false := rfl
    rw [hr]
    have hstep : (execOp sys (PbtOp.set_value k j)).get? i = sys.get? i := by
      show (match sys.get? j with
        | none => sys
        | some gj => modifyAt sys k (fun g =>
            { g with step_num := gj.step_num, hyperparams := gj.hyperparams,
                     last_update := gj.last_update })).get? i = sys.get? i
      cases sys.get? j with
      | none => rfl
      | some gj => rw [get?_modifyAt, if_neg hki]
    rw [hstep]
    cases sys.get? i <;> simp

/-- Along any trace containing no `set_value` into graph `i`, the
history length of graph `i` grows by exactly the number of
`record_update` calls for it. -/
theorem history_length_no_set_value :
    ∀ (ops : List PbtOp) (sys : List HyperparamsGraph) (i : Nat),
      (ops.all (fun op => !isSetValueTo i op)) = true →
      ((execTrace sys ops).get? i).map (fun g => g.last_update.length) =
        (sys.get? i).map
          (fun g => g.last_update.length + ops.countP (isRecordOf i)) := by
  intro ops
  induction ops with
  | nil =>
    intro sys i _
    show (sys.get? i).map _ = _
    cases sys.get? i <;> simp
  | cons op rest ih =>
    intro sys i hall
    rw [List.all_cons] at hall
    have hop : isSetValueTo i op = false := by
      have := (Bool.and_eq_true _ _).mp hall
      simpa using this.1
    have hrest := (Bool.and_eq_true _ _).mp hall |>.2
    have hstep : execTrace sys (op :: rest) = execTrace (execOp sys op) rest := rfl
    rw [hstep, ih (execOp sys op) i hrest]
    have hone := history_length_execOp sys op i hop
    cases hgi : sys.get? i with
    | none =>
      rw [hgi] at hone
      have : (execOp sys op).get? i = none := by
        cases hx : (execOp sys op).get? i with
        | none => rfl
        | some g' => rw [hx] at hone; simp at hone
      rw [this]
      rfl
    | some g =>
      rw [hgi] at hone
      rcases Option.map_eq_some'.mp hone with ⟨g', hg', hlen⟩
      rw [hg']
      show some (g'.last_update.length + List.countP (isRecordOf i) rest) =
        some (g.last_update.length + List.countP (isRecordOf i) (op :: rest))
      refine congrArg some ?_
      rw [List.countP_cons]
      have hlen' : g'.last_update.length =
          g.last_update.length + (if isRecordOf i op = true then 1 else 0) := hlen
      by_cases hro : isRecordOf i op = true
      · have hone1 : (if isRecordOf i op = true then 1 else 0) = 1 := by
          rw [hro]
          decide
        rw [hone1] at hlen' ⊢
        omega
      · have hro' : isRecordOf i op = false := Bool.eq_false_iff.mpr hro
        have hone0 : (if isRecordOf i op = true then 1 else 0) = 0 := by
          rw [hro']
          decide
        rw [hone0] at hlen' ⊢
        omega

/-! ## Claim C4 -/

/-- C4 counterexample: the claim says the history-sequence length equals
the number of `recordUpdate` calls made for that graph.  Start from two
freshly constructed graphs; record an update on each, train graph 1 one
step and record again on it, then let graph 0 copy graph 1 by
`set_value` (the exploit path).  Graph 0's history now has length 2
(it is graph 1's chain), while only one `recordUpdate` call was ever
made for graph 0. -/
theorem C4_counterexample :
    ((execTrace [⟨0, [], []⟩, ⟨0, [], []⟩]
        [PbtOp.record 0, PbtOp.record 1, PbtOp.train_step 1, PbtOp.record 1,
          PbtOp.set_value 0 1]).get? 0).map (fun g => g.last_update.length) =
        some 2 ∧
      ([PbtOp.record 0, PbtOp.record 1, PbtOp.train_step 1, PbtOp.record 1,
          PbtOp.set_value 0 1].countP (isRecordOf 0)) = 1 ∧ (2 : Nat) ≠ 1 := by
  refine ⟨?_, ?_, by norm_num⟩ <;> rfl

/-- C4 amended: for every population satisfying the history invariant
and every operation trace, (a) the invariant is preserved and every
graph's history sequence is non-decreasing in step number, and (b) the
history length of a graph equals its previous history length plus the
number of `recordUpdate` calls made for it, provided the trace contains
no `set_value` (exploit copy) into that graph — a `set_value` instead
replaces the graph's history by the source graph's entire chain, so the
length then counts the `recordUpdate` calls that built the copied
chain, not the calls made for the receiving graph. -/
theorem C4_history_sorted_and_length (sys : List HyperparamsGraph)
    (ops : List PbtOp) (h : ValidSys sys) :
    ValidSys (execTrace sys ops) ∧
      (∀ g ∈ execTrace sys ops,
        List.Sorted (· ≤ ·)
          ((g.get_update_history.consume).1.map (fun u => u.step_num))) ∧
      (∀ i : Nat, (ops.all (fun op => !isSetValueTo i op)) = true →
        ((execTrace sys ops).get? i).map (fun g => g.last_update.length) =
          (sys.get? i).map
            (fun g => g.last_update.length + ops.countP (isRecordOf i))) := by
  have hv := validSys_execTrace ops sys h
  refine ⟨hv, ?_, fun i hno => history_length_no_set_value ops sys i hno⟩
  intro g hg
  have hvg := hv g hg
  have hist : (g.get_update_history.consume).1 = g.last_update.reverse := by
    show (collectChain g.last_update []).reverse = g.last_update.reverse
    rw [collectChain_eq]
    rfl
  rw [hist, List.map_reverse]
  exact List.pairwise_reverse.mpr ((List.sorted_cons.mp hvg).2)

/-- Witness for C4 at a singleton population of one freshly constructed
graph and a one-`record_update` trace. -/
theorem C4_witness :
    ValidSys (execTrace [⟨0, [], []⟩] [PbtOp.record 0]) ∧
      (∀ g ∈ execTrace [⟨0, [], []⟩] [PbtOp.record 0],
        List.Sorted (· ≤ ·)
          ((g.get_update_history.consume).1.map (fun u => u.step_num))) ∧
      (∀ i : Nat,
        (([PbtOp.record 0] : List PbtOp).all (fun op => !isSetValueTo i op)) = true →
        ((execTrace [⟨0, [], []⟩] [PbtOp.record 0]).get? i).map
            (fun g => g.last_update.length) =
          (([⟨0, [], []⟩] : List HyperparamsGraph).get? i).map
            (fun g => g.last_update.length +
              ([PbtOp.record 0] : List PbtOp).countP (isRecordOf i))) :=
  C4_history_sorted_and_length [⟨0, [], []⟩] [PbtOp.record 0]
    (fun g hg => by
      rcases List.mem_singleton.mp hg with rfl
      exact List.sorted_singleton _)

/-! ## Optimizer hyperparameters (`mnist_pbt.OptimizerHyperparameter`) -/

/-- Embeds `mnist_pbt.OptimizerHyperparameter`: for each of the
alternative optimizers (`opt_info`), the positions — indices into the
graph's hyperparameter array — of the sub-hyperparameters that affect
it; the index of the currently selected optimizer; and the `vary_opt`
flag. -/
structure OptimizerHyperparameter where
  opt_hyperparams : List (List Nat)
  opt_index : Nat
  vary_opt : Bool

/-- Embeds `OptimizerHyperparameter._set_sub_hyperparams_unused`: set
the `unused` flag of every sub-hyperparameter of the currently selected
optimizer.  A sub-hyperparameter is modelled as its `unused` flag paired
with its value. -/
def set_sub_hyperparams_unused (o : OptimizerHyperparameter)
    (arr : List (Bool × ℚ)) (b : Bool) : List (Bool × ℚ) :=
  (o.opt_hyperparams.getD o.opt_index []).foldl
    (fun a idx => modifyAt a idx (fun p => (b, p.2))) arr

/-- Embeds `OptimizerHyperparameter._switch_to_opt`: mark the old
optimizer's sub-hyperparameters unused, select `opt_index`, then — for
each sub-hyperparameter of the new optimizer, in order — resample it
(`fresh` supplies the freshly sampled value for each position) and mark
it used. -/
def switch_to_opt (o : OptimizerHyperparameter) (arr : List (Bool × ℚ))
    (opt_index : Nat) (fresh : Nat → ℚ) :
    OptimizerHyperparameter × List (Bool × ℚ) :=
  let arr1 := set_sub_hyperparams_unused o arr true
  let o1 := { o with opt_index := opt_index }
  let arr2 := (o1.opt_hyperparams.getD opt_index []).foldl
    (fun a idx => modifyAt a idx (fun _p => (false, fresh idx))) arr1
  (o1, arr2)

/-- Embeds `OptimizerHyperparameter.perturb`: when `vary_opt` holds and
there are at least two alternatives, switch to optimizer
`(opt_index + r) % num_opts`, where `r` is the value drawn by
`random.randrange(1, num_opts)`. -/
def OptimizerHyperparameter.perturb (o : OptimizerHyperparameter)
    (arr : List (Bool × ℚ)) (r : Nat) (fresh : Nat → ℚ) :
    OptimizerHyperparameter × List (Bool × ℚ) :=
  if o.vary_opt then
    if 2 ≤ o.opt_hyperparams.length then
      switch_to_opt o arr ((o.opt_index + r) % o.opt_hyperparams.length) fresh
    else (o, arr)
  else (o, arr)

/-- Folding position-wise writes over an array: when each position's
write is idempotent, a position ends up written (once) iff it occurs in
the index list, and untouched otherwise. -/
theorem foldl_modifyAt_get? {α : Type} (f : Nat → α → α)
    (hf : ∀ i q, f i (f i q) = f i q) :
    ∀ (l : List Nat) (a : List α) (p : Nat),
      (l.foldl (fun acc i => modifyAt acc i (f i)) a).get? p =
        if p ∈ l then (a.get? p).map (f p) else a.get? p := by
  intro l
  induction l with
  | nil => intro a p; simp
  | cons i t ih =>
    intro a p
    rw [List.foldl_cons, ih (modifyAt a i (f i)) p, get?_modifyAt]
    by_cases hpi : p = i
    · subst hpi
      rw [if_pos rfl]
      by_cases hpt : p ∈ t
      · rw [if_pos hpt, if_pos (List.mem_cons_self _ _)]
        cases a.get? p with
        | none => rfl
        | some q => show some (f p (f p q)) = some (f p q); rw [hf]
      · rw [if_neg hpt, if_pos (List.mem_cons_self _ _)]
    · rw [if_neg hpi]
      by_cases hpt : p ∈ t
      · rw [if_pos hpt, if_pos (List.mem_cons.mpr (Or.inr hpt))]
      · rw [if_neg hpt,
          if_neg (fun hc => (List.mem_cons.mp hc).elim hpi hpt)]

/-- Modular arithmetic on a sum below `2 n`. -/
theorem mod_of_lt_two_mul (a n : Nat) (_hn : 0 < n) (ha : a < 2 * n) :
    a % n = if a < n then a else a - n := by
  by_cases h : a < n
  · rw [if_pos h, Nat.mod_eq_of_lt h]
  · rw [if_neg h, Nat.mod_eq_sub_mod (Nat.le_of_not_lt h),
      Nat.mod_eq_of_lt (by omega)]

/-- The optimizer switch `r ↦ (old + r) % n` never selects the current
category, and reaches every other category from exactly one draw
`r ∈ {1, …, n−1}` — the draw is uniform over the remaining
categories. -/
theorem switch_index_uniform (n old : Nat) (hold : old < n) :
    (∀ r ∈ Finset.Ico 1 n, (old + r) % n ≠ old) ∧
      (∀ j < n, j ≠ old →
        ((Finset.Ico 1 n).filter (fun r => (old + r) % n = j)).card = 1) := by
  have hn : 0 < n := Nat.lt_of_le_of_lt (Nat.zero_le old) hold
  constructor
  · intro r hr
    rcases Finset.mem_Ico.mp hr with ⟨hr1, hrn⟩
    rw [mod_of_lt_two_mul _ n hn (by omega)]
    by_cases h : old + r < n
    · rw [if_pos h]; omega
    · rw [if_neg h]; omega
  · intro j hj hne
    rw [Finset.card_eq_one]
    refine ⟨if old < j then j - old else j + n - old, ?_⟩
    rw [Finset.eq_singleton_iff_unique_mem]
    constructor
    · rw [Finset.mem_filter, Finset.mem_Ico]
      by_cases hoj : old < j
      · rw [if_pos hoj]
        refine ⟨⟨by omega, by omega⟩, ?_⟩
        rw [mod_of_lt_two_mul _ n hn (by omega), if_pos (by omega)]
        omega
      · rw [if_neg hoj]
        refine ⟨⟨by omega, by omega⟩, ?_⟩
        rw [mod_of_lt_two_mul _ n hn (by omega), if_neg (by omega)]
        omega
    · intro r hr
      rcases Finset.mem_filter.mp hr with ⟨hrm, hrj⟩
      rcases Finset.mem_Ico.mp hrm with ⟨hr1, hrn⟩
      rw [mod_of_lt_two_mul _ n hn (by omega)] at hrj
      by_cases h : old + r < n
      · rw [if_pos h] at hrj
        have : old < j := by omega
        rw [if_pos this]
        omega
      · rw [if_neg h] at hrj
        have : ¬ old < j := by omega
        rw [if_neg this]
        omega

/-! ## Claim C7 -/

/-- C7: for a categorical (optimizer) hyperparameter with `vary_opt`
and at least two alternatives, `perturb` switches to a different
category — chosen uniformly at random among the remaining ones: every
other category is reached by exactly one value of the
`random.randrange(1, num_opts)` draw, and the current one by none —
resamples the sub-hyperparameters of the newly selected category, and
leaves the flags so that the new category's sub-hyperparameters are
`unused = false` with freshly sampled values, the previous category's
remaining sub-hyperparameters are `unused = true` with values
untouched, and all other positions are unchanged. -/
theorem C7_optimizer_perturb (o : OptimizerHyperparameter)
    (arr : List (Bool × ℚ)) (r : Nat) (fresh : Nat → ℚ)
    (hv : o.vary_opt = true) (hn : 2 ≤ o.opt_hyperparams.length)
    (hold : o.opt_index < o.opt_hyperparams.length)
    (hr1 : 1 ≤ r) (hrn : r < o.opt_hyperparams.length) :
    (o.perturb arr r fresh).1.opt_index ≠ o.opt_index ∧
      (o.perturb arr r fresh).1.opt_index < o.opt_hyperparams.length ∧
      (∀ j < o.opt_hyperparams.length, j ≠ o.opt_index →
        ((Finset.Ico 1 o.opt_hyperparams.length).filter
          (fun x => (o.opt_index + x) % o.opt_hyperparams.length = j)).card = 1) ∧
      (∀ p : Nat,
        (o.perturb arr r fresh).2.get? p =
          if p ∈ o.opt_hyperparams.getD
              ((o.opt_index + r) % o.opt_hyperparams.length) [] then
            (arr.get? p).map (fun _q => (false, fresh p))
          else if p ∈ o.opt_hyperparams.getD o.opt_index [] then
            (arr.get? p).map (fun q => (true, q.2))
          else arr.get? p) := by
  have huni := switch_index_uniform o.opt_hyperparams.length o.opt_index hold
  have hperturb : o.perturb arr r fresh =
      switch_to_opt o arr ((o.opt_index + r) % o.opt_hyperparams.length) fresh := by
    unfold OptimizerHyperparameter.perturb
    rw [hv, if_pos rfl, if_pos hn]
  have hidx : (o.perturb arr r fresh).1.opt_index =
      (o.opt_index + r) % o.opt_hyperparams.length := by
    rw [hperturb]; rfl
  refine ⟨?_, ?_, huni.2, ?_⟩
  · rw [hidx]
    exact huni.1 r (Finset.mem_Ico.mpr ⟨hr1, hrn⟩)
  · rw [hidx]
    exact Nat.mod_lt _ (by omega)
  · intro p
    have harr2 : (o.perturb arr r fresh).2 =
        (o.opt_hyperparams.getD ((o.opt_index + r) % o.opt_hyperparams.length)
            []).foldl
          (fun a idx => modifyAt a idx (fun _p => (false, fresh idx)))
          ((o.opt_hyperparams.getD o.opt_index []).foldl
            (fun a idx => modifyAt a idx (fun p => (true, p.2))) arr) := by
      rw [hperturb]; rfl
    rw [harr2,
      foldl_modifyAt_get? (fun idx (_q : Bool × ℚ) => (false, fresh idx))
        (fun _ _ => rfl),
      foldl_modifyAt_get? (fun _idx (q : Bool × ℚ) => (true, q.2))
        (fun _ _ => rfl)]
    by_cases hnew :
        p ∈ o.opt_hyperparams.getD ((o.opt_index + r) % o.opt_hyperparams.length) []
    · rw [if_pos hnew, if_pos hnew]
      by_cases holdm : p ∈ o.opt_hyperparams.getD o.opt_index []
      · rw [if_pos holdm]
        cases arr.get? p <;> rfl
      · rw [if_neg holdm]
    · rw [if_neg hnew, if_neg hnew]

/-- Witness for C7 at the `ConvNet` optimizer configuration: four
optimizers whose sub-hyperparameter positions are `[[2], [2], [2, 3],
[2]]` (`Learning rate` at position 2 belongs to all four,
`Momentum` at position 3 only to `MomentumOptimizer`), currently at
`AdamOptimizer` (index 3), drawing `r = 1`. -/
theorem C7_witness :
    ((OptimizerHyperparameter.mk [[2], [2], [2, 3], [2]] 3 true).perturb
        [(false, 1/2), (false, 0), (false, 1/10), (true, 3/5)] 1
        (fun _ => 7/10)).1.opt_index ≠
        (OptimizerHyperparameter.mk [[2], [2], [2, 3], [2]] 3 true).opt_index ∧
      ((OptimizerHyperparameter.mk [[2], [2], [2, 3], [2]] 3 true).perturb
        [(false, 1/2), (false, 0), (false, 1/10), (true, 3/5)] 1
        (fun _ => 7/10)).1.opt_index <
        (OptimizerHyperparameter.mk [[2], [2], [2, 3], [2]] 3 true).opt_hyperparams.length ∧
      (∀ j < (OptimizerHyperparameter.mk [[2], [2], [2, 3], [2]] 3 true).opt_hyperparams.length,
        j ≠ (OptimizerHyperparameter.mk [[2], [2], [2, 3], [2]] 3 true).opt_index →
        ((Finset.Ico 1 (OptimizerHyperparameter.mk [[2], [2], [2, 3], [2]] 3 true).opt_hyperparams.length).filter
          (fun x => ((OptimizerHyperparameter.mk [[2], [2], [2, 3], [2]] 3 true).opt_index + x) %
            (OptimizerHyperparameter.mk [[2], [2], [2, 3], [2]] 3 true).opt_hyperparams.length = j)).card = 1) ∧
      (∀ p : Nat,
        ((OptimizerHyperparameter.mk [[2], [2], [2, 3], [2]] 3 true).perturb
            [(false, 1/2), (false, 0), (false, 1/10), (true, 3/5)] 1
            (fun _ => 7/10)).2.get? p =
          if p ∈ (OptimizerHyperparameter.mk [[2], [2], [2, 3], [2]] 3 true).opt_hyperparams.getD
              (((OptimizerHyperparameter.mk [[2], [2], [2, 3], [2]] 3 true).opt_index + 1) %
                (OptimizerHyperparameter.mk [[2], [2], [2, 3], [2]] 3 true).opt_hyperparams.length) [] then
            (([(false, 1/2), (false, 0), (false, 1/10), (true, 3/5)] :
                List (Bool × ℚ)).get? p).map (fun _q => (false, (7 : ℚ)/10))
          else if p ∈ (OptimizerHyperparameter.mk [[2], [2], [2, 3], [2]] 3 true).opt_hyperparams.getD
              (OptimizerHyperparameter.mk [[2], [2], [2, 3], [2]] 3 true).opt_index [] then
            (([(false, 1/2), (false, 0), (false, 1/10), (true, 3/5)] :
                List (Bool × ℚ)).get? p).map (fun q => (true, q.2))
          else ([(false, 1/2), (false, 0), (false, 1/10), (true, 3/5)] :
              List (Bool × ℚ)).get? p) :=
  C7_optimizer_perturb (OptimizerHyperparameter.mk [[2], [2], [2, 3], [2]] 3 true)
    [(false, 1/2), (false, 0), (false, 1/10), (true, 3/5)] 1 (fun _ => 7/10)
    rfl (by norm_num) (by norm_num) (by norm_num) (by norm_num)

/-! ## Lock ordering and deadlock freedom -/

/-- Modelled from the spec: the implementations of
`Graph.population_exploit_explore` and `Graph.exploit_and_or_explore`
(declared abstract in `src/pbt.py`, raising `NotImplementedError`) and
the per-member locks they acquire are not part of the sources under
`src/`; section 5 of the spec prescribes their lock protocol.  A lock
state over `n` member locks and `k` concurrent acquisition tasks
(ranking passes, copy pairs) records which member locks each task
currently holds and which single lock, if any, it is blocked waiting
for.  The spec's ordering invariant — acquire in a single globally
fixed total order over member identity, never requesting a lock out of
order while holding a later one — says every held lock is strictly
below the requested one. -/
def LockDiscipline {k n : Nat} (holds : Fin k → Finset (Fin n))
    (wants : Fin k → Option (Fin n)) : Prop :=
  ∀ t w l, wants t = some w → l ∈ holds t → l < w

/-- Modelled from the spec: a deadlock is a non-empty set of tasks each
of which is blocked waiting for a member lock held by some task of the
set (a cycle, or more generally a knot, in the waits-for relation). -/
def Deadlocked {k n : Nat} (holds : Fin k → Finset (Fin n))
    (wants : Fin k → Option (Fin n)) : Prop :=
  ∃ S : Finset (Fin k), S.Nonempty ∧
    ∀ t ∈ S, ∃ w, wants t = some w ∧ ∃ u ∈ S, w ∈ holds u

/-! ## Claim C3 -/

/-- C3: concurrent execution of `population_exploit_explore` and any
member's individual `exploit_and_or_explore` over the same population
never deadlocks when all multi-member lock acquisitions follow a single
globally fixed total order over member identity: in any state of any
set of tasks obeying the ordering discipline, no deadlocked set of
tasks exists — consider the largest lock wanted inside a purported
deadlocked set; its holder obeys the discipline, so that holder would
be waiting for a strictly larger lock of the set, which is
impossible. -/
theorem C3_lock_order_deadlock_free (k n : Nat)
    (holds : Fin k → Finset (Fin n)) (wants : Fin k → Option (Fin n))
    (h : LockDiscipline holds wants) : ¬ Deadlocked holds wants := by
  rintro ⟨S, hSne, hblock⟩
  classical
  set W : Finset (Fin n) := S.biUnion (fun t => (wants t).toFinset) with hW
  have hWne : W.Nonempty := by
    rcases hSne with ⟨t0, ht0⟩
    rcases hblock t0 ht0 with ⟨w0, hw0, _⟩
    exact ⟨w0, Finset.mem_biUnion.mpr ⟨t0, ht0, by simp [hw0]⟩⟩
  have hmax := W.max'_mem hWne
  rcases Finset.mem_biUnion.mp hmax with ⟨t1, ht1, hwt1⟩
  have hw1 : wants t1 = some (W.max' hWne) := by
    simpa using hwt1
  rcases hblock t1 ht1 with ⟨w1, hw1', u, hu, hheld⟩
  have hww : w1 = W.max' hWne := by
    rw [hw1] at hw1'
    exact (Option.some.injEq _ _ ▸ hw1').symm ▸ rfl
  rcases hblock u hu with ⟨wu, hwu, _⟩
  have hlt : W.max' hWne < wu := by
    apply h u wu (W.max' hWne) hwu
    rw [← hww]
    exact hheld
  have hle : wu ≤ W.max' hWne :=
    W.le_max' wu (Finset.mem_biUnion.mpr ⟨u, hu, by simp [hwu]⟩)
  exact absurd hlt (not_lt_of_le hle)

/-- Witness for C3: two tasks over two member locks, task 0 holding
lock 0 and requesting lock 1, task 1 holding nothing and requesting
lock 0 — the discipline holds, so no subset of the two tasks is
deadlocked. -/
theorem C3_witness :
    ¬ Deadlocked (fun t : Fin 2 => if t = 0 then ({0} : Finset (Fin 2)) else ∅)
      (fun t : Fin 2 => if t = 0 then some 1 else some 0) :=
  C3_lock_order_deadlock_free 2 2
    (fun t => if t = 0 then {0} else ∅)
    (fun t => if t = 0 then some 1 else some 0)
    (by unfold LockDiscipline; decide)
